import Mathlib

/-!
Shallow embedding of the Phynteny data-preparation pipeline
(format_data.py and the get_masked helper of statistics.py).

Genomes are dictionaries with keys length, phrogs, protein_id, sense and
position; categories are obtained by mapping a phrog-to-category encoding
over the phrogs list.  Numpy float division is modelled exactly on the
rationals, with a zero denominator producing the undefined value none
(numpy yields NaN or inf there, which compares unequal to every number,
as none does under decidable equality).  Matrices are lists of rows.
-/

set_option linter.unusedVariables false

/-- A genome record as stored in the phispy dictionaries: total genome
length, phrog identifiers, protein identifiers, strand characters and
position spans. -/
structure Genome where
  length : ℤ
  phrogs : List ℕ
  protein_id : List String
  sense : List Char
  position : List (ℤ × ℤ)
  deriving DecidableEq

/-- Integer category sequence of a genome: the phrog encoding mapped over
the phrogs list (format_data.py line 43 and elsewhere). -/
def categoriesOf (enc : ℕ → ℕ) (g : Genome) : List ℕ := g.phrogs.map enc

/-- The inclusion test of generate_data (format_data.py lines 45-58): at
least four distinct categories other than 0, and category 1 at the first
or the last gene position. -/
def keepGenomeB (enc : ℕ → ℕ) (g : Genome) : Bool :=
  decide (4 ≤ ((categoriesOf enc g).toFinset.erase 0).card) &&
    (decide ((categoriesOf enc g).head? = some 1) ||
      decide ((categoriesOf enc g).getLast? = some 1))

/-- The filter phase of generate_data: the genomes passing keepGenomeB, in
input order (the loop of format_data.py lines 41-58). -/
def generate_data_filter (enc : ℕ → ℕ) (gs : List (String × Genome)) :
    List (String × Genome) :=
  gs.filter (fun p => keepGenomeB enc p.2)

/-- Strand flip used by flip_genomes (format_data.py line 155). -/
def flipChar (c : Char) : Char := if c = '+' then '-' else '+'

/-- Coordinate reflection of one span (format_data.py line 153):
a span (s, e) becomes (np.abs(e - length), np.abs(s - length)). -/
def reflectSpan (L : ℤ) (p : ℤ × ℤ) : ℤ × ℤ := (|p.2 - L|, |p.1 - L|)

/-- Position list of a flipped genome (format_data.py line 153): the
reflection mapped over the reversed position list. -/
def flipPositions (L : ℤ) (ps : List (ℤ × ℤ)) : List (ℤ × ℤ) :=
  ps.reverse.map (reflectSpan L)

/-- The flipped genome built by flip_genomes (format_data.py lines 152-162). -/
def flipGenome (g : Genome) : Genome :=
  { length := g.length
    phrogs := g.phrogs.reverse
    protein_id := g.protein_id.reverse
    sense := (g.sense.reverse).map flipChar
    position := flipPositions g.length g.position }

/-- flip_genomes on one genome (format_data.py lines 144-166): flip exactly
when the encoded category at the last position is 1. -/
def flip_genomes (enc : ℕ → ℕ) (g : Genome) : Genome :=
  if (categoriesOf enc g).getLast? = some 1 then flipGenome g else g

/-- The strand string of a genome, as joined by derep_trainingdata
(format_data.py line 122). -/
def senseString (g : Genome) : String := String.mk g.sense

/-- The category string of a genome: decimal renderings of the encoded
categories, concatenated (format_data.py line 121). -/
def catString (enc : ℕ → ℕ) (g : Genome) : String :=
  String.join ((categoriesOf enc g).map (fun n => Nat.repr n))

/-- The dedup signature: strand string followed by category string
(format_data.py line 123). -/
def sigOf (enc : ℕ → ℕ) (g : Genome) : String := senseString g ++ catString enc g

/-- One python dict insertion d[k] = v on an association list kept in key
insertion order: an existing slot for k is updated in place, a fresh key is
appended. -/
def pyDictUpd {α β : Type} [DecidableEq α] (l : List (α × β)) (k : α) (v : β) :
    List (α × β) :=
  if l.any (fun p => decide (p.1 = k)) then
    l.map (fun p => if p.1 = k then (k, v) else p)
  else l ++ [(k, v)]

/-- Building a python dict by inserting the pairs left to right, starting
from an accumulator. -/
def pyDictFrom {α β : Type} [DecidableEq α] (acc : List (α × β)) :
    List (α × β) → List (α × β)
  | [] => acc
  | p :: ps => pyDictFrom (pyDictUpd acc p.1 p.2) ps

/-- dict(zip(keys, values)) in python: the pairs inserted in order into an
empty dict (format_data.py line 126). -/
def pyDict {α β : Type} [DecidableEq α] (ps : List (α × β)) : List (α × β) :=
  pyDictFrom [] ps

/-- training_data.get(key): the genome stored under a key
(format_data.py line 128). -/
def lookupG (training : List (String × Genome)) (k : String) : Option Genome :=
  (training.find? (fun p => decide (p.1 = k))).map Prod.snd

/-- derep_trainingdata (format_data.py lines 106-128): the hash of each
genome is zipped with its key into a dict, whose values are the
dereplicated keys, looked up again in the training data. -/
def derep_trainingdata (enc : ℕ → ℕ) (training : List (String × Genome)) :
    List (String × Option Genome) :=
  ((pyDict (training.map (fun p => (sigOf enc p.2, p.1)))).map Prod.snd).map
    (fun k => (k, lookupG training k))

/-- Gene lengths end minus start (format_data.py line 191). -/
def geneLengths (g : Genome) : List ℤ := g.position.map (fun p => p.2 - p.1)

/-- Strand rendered as 2 for forward and 1 for reverse
(format_data.py line 194). -/
def senseNum (g : Genome) : List ℕ :=
  g.sense.map (fun c => if c = '+' then 2 else 1)

/-- Raw start offsets: start minus first start plus one
(format_data.py line 197). -/
def startsRaw (g : Genome) : List ℤ :=
  g.position.map (fun p => p.1 - (g.position.headI).1 + 1)

/-- Raw intergenic distances: next start minus current end, with 0
prepended for the first gene (format_data.py lines 200-201). -/
def intergenicRaw (g : Genome) : List ℤ :=
  0 :: (g.position.zip g.position.tail).map (fun q => q.2.1 - q.1.2)

/-- np.max over an integer list (0 on the empty list, which numpy refuses;
never reached under the nonemptiness facts used below). -/
def listMaxD : List ℤ → ℤ
  | [] => 0
  | a :: t => t.foldl max a

/-- Dataset-wide maximum gene length (format_data.py line 211). -/
def maxLenScalar (gs : List Genome) : ℤ :=
  listMaxD (gs.map (fun g => listMaxD (geneLengths g)))

/-- Dataset-wide maximum absolute intergenic distance
(format_data.py line 215). -/
def maxIntergenicScalar (gs : List Genome) : ℤ :=
  listMaxD (gs.map (fun g => listMaxD ((intergenicRaw g).map (fun v => |v|))))

/-- Numpy true division on exact values: a zero denominator yields the
undefined value none (NaN or inf in numpy, unequal to every number). -/
def npDiv (a b : ℚ) : Option ℚ := if b = 0 then none else some (a / b)

/-- Normalized length feature: every gene length divided by the
dataset-wide maximum (format_data.py line 212). -/
def lengthFeat (gs : List Genome) (g : Genome) : List (Option ℚ) :=
  (geneLengths g).map (fun v : ℤ => npDiv (v : ℚ) ((maxLenScalar gs : ℤ) : ℚ))

/-- Normalized start feature: raw starts divided by their own maximum
(format_data.py line 219). -/
def startFeat (g : Genome) : List (Option ℚ) :=
  (startsRaw g).map
    (fun v : ℤ => npDiv (v : ℚ) ((listMaxD (startsRaw g) : ℤ) : ℚ))

/-- Normalized intergenic feature: raw distances divided by the
dataset-wide maximum absolute distance (format_data.py line 216). -/
def intergenicFeat (gs : List Genome) (g : Genome) : List (Option ℚ) :=
  (intergenicRaw g).map
    (fun v : ℤ => npDiv (v : ℚ) ((maxIntergenicScalar gs : ℤ) : ℚ))

/-- encode_strand (format_data.py lines 96-104): indicator of value 1 and
indicator of value 2, in that order. -/
def encode_strand (strand : List ℕ) : List ℚ × List ℚ :=
  (strand.map (fun i => if i = 1 then (1 : ℚ) else 0),
   strand.map (fun i => if i = 2 then (1 : ℚ) else 0))

/-- The per-genome feature list assembled by format_data
(format_data.py lines 221-228): strand1, strand2, length, start,
intergenic.  Exact values are lifted into the numpy value type. -/
def format_features (gs : List Genome) (g : Genome) : List (List (Option ℚ)) :=
  [(encode_strand (senseNum g)).1.map some,
   (encode_strand (senseNum g)).2.map some,
   lengthFeat gs g,
   startFeat g,
   intergenicFeat gs g]

/-- A matrix entry: a rational, or the undefined value none. -/
abbrev Cell : Type := Option ℚ

/-- A matrix as a list of rows. -/
abbrev Mat : Type := List (List Cell)

/-- keras pad_sequences with post padding (and its default pre truncation):
drop from the front down to maxlen, pad with 0 on the right up to maxlen. -/
def padSeq (s : List ℕ) (m : ℕ) : List ℕ :=
  s.drop (s.length - m) ++ List.replicate (m - s.length) 0

/-- One row of a one-hot encoding: 1 at the value, 0 elsewhere
(format_data.py lines 328-331). -/
def oneHotRow (n v : ℕ) : List Cell :=
  (List.range n).map (fun j => if j = v then some 1 else some 0)

/-- one_hot_encode (format_data.py lines 318-333). -/
def one_hot_encode (s : List ℕ) (n : ℕ) : Mat := s.map (oneHotRow n)

/-- encode_feature (format_data.py lines 335-348): write the feature into
the given column of the first len(feature) rows. -/
def encode_feature : Mat → List Cell → ℕ → Mat
  | [], _, _ => []
  | row :: M, [], _ => row :: M
  | row :: M, v :: f, c => row.set c v :: encode_feature M f c

/-- The feature loop of generate_example (format_data.py lines 388-389):
feature number f is written into column base + f. -/
def applyFeatures : Mat → ℕ → List (List Cell) → Mat
  | M, _, [] => M
  | M, base, f :: fs => applyFeatures (encode_feature M f base) (base + 1) fs

/-- Zero out the first n entries of a row (the mask write
X[idx, 0:num_functions] = zeros, format_data.py line 392). -/
def zeroFirstCols : List Cell → ℕ → List Cell
  | row, 0 => row
  | [], _ + 1 => []
  | _ :: row, n + 1 => some 0 :: zeroFirstCols row n

/-- Apply the mask write to row idx of a matrix. -/
def maskRow : Mat → ℕ → ℕ → Mat
  | [], _, _ => []
  | row :: M, 0, n => zeroFirstCols row n :: M
  | row :: M, i + 1, n => row :: maskRow M i n

/-- generate_example (format_data.py lines 372-398), up to the final
reshape, which only adds a leading batch axis. -/
def generate_example (sequence : List ℕ) (features : List (List Cell))
    (num_functions n_features max_length idx : ℕ) : Mat × Mat :=
  (maskRow
      (applyFeatures (one_hot_encode (padSeq sequence max_length) n_features)
        num_functions features)
      idx num_functions,
   one_hot_encode (padSeq sequence max_length) num_functions)

/-- Whether the first n columns of a row are all zero (the row test of
get_masked, statistics.py line 169). -/
def rowMasked (n : ℕ) (row : List Cell) : Bool :=
  (row.take n).all (fun v => decide (v = some 0))

/-- Index of the first element satisfying a test: np.where(...)[0][0],
none when no element does (numpy raises there). -/
def firstIdxSat {α : Type} (p : α → Bool) : List α → Option ℕ
  | [] => none
  | a :: l => if p a then some 0 else (firstIdxSat p l).map (fun k => k + 1)

/-- get_masked (statistics.py lines 160-169): the first row whose first
num_categories columns are all zero. -/
def get_masked (encoding : Mat) (num_categories : ℕ) : Option ℕ :=
  firstIdxSat (rowMasked num_categories) encoding

/-- Entry (i, j) of a matrix, as far as both indices exist. -/
def entry (M : Mat) (i j : ℕ) : Option Cell :=
  (M.get? i).bind (fun r => r.get? j)

/-- The mask-index rejection loop of generate_dataset (format_data.py
lines 498-502), driven by the stream of values random.randint returns:
keep drawing until the drawn index carries a nonzero category. -/
def drawLoop (seq : List ℕ) : List ℕ → Option ℕ
  | [] => none
  | d :: ds => if seq.getD d 0 = 0 then drawLoop seq ds else some d

/-- The range of random.randint(1, len(seq) - 1). -/
def validDraw (seq : List ℕ) (d : ℕ) : Prop := 1 ≤ d ∧ d ≤ seq.length - 1

/-- The rejection loop finds no index however long the stream of in-range
draws runs: the while loop of generate_dataset never exits. -/
def neverTerminates (seq : List ℕ) : Prop :=
  ∀ draws : List ℕ, (∀ d ∈ draws, validDraw seq d) → drawLoop seq draws = none

/-! ### Structural lemmas for the matrix pipeline -/

theorem length_padSeq (s : List ℕ) (m : ℕ) : (padSeq s m).length = m := by
  simp only [padSeq, List.length_append, List.length_drop, List.length_replicate]
  omega

theorem get?_padSeq_lt (s : List ℕ) (m i : ℕ) (h1 : s.length ≤ m)
    (h2 : i < s.length) : (padSeq s m).get? i = s.get? i := by
  have hz : s.length - m = 0 := Nat.sub_eq_zero_of_le h1
  simp only [padSeq, hz, List.drop_zero]
  exact List.get?_append h2

theorem get?_padSeq_pad (s : List ℕ) (m i : ℕ) (h1 : s.length ≤ m)
    (h2 : s.length ≤ i) (h3 : i < m) : (padSeq s m).get? i = some 0 := by
  have hz : s.length - m = 0 := Nat.sub_eq_zero_of_le h1
  simp only [padSeq, hz, List.drop_zero]
  rw [List.get?_append_right h2, List.get?_eq_getElem?, List.getElem?_replicate]
  rw [if_pos (by omega)]

theorem length_one_hot (s : List ℕ) (n : ℕ) :
    (one_hot_encode s n).length = s.length := List.length_map s (oneHotRow n)

theorem get?_one_hot (s : List ℕ) (n i : ℕ) :
    (one_hot_encode s n).get? i = (s.get? i).map (oneHotRow n) :=
  List.get?_map (oneHotRow n) s i

theorem length_oneHotRow (n v : ℕ) : (oneHotRow n v).length = n := by
  simp [oneHotRow]

theorem take_oneHotRow (n k v : ℕ) (h : k ≤ n) :
    (oneHotRow n v).take k = oneHotRow k v := by
  rw [oneHotRow, oneHotRow, ← List.map_take, List.take_range, Nat.min_eq_left h]

theorem mem_one_oneHotRow (n v : ℕ) (h : v < n) :
    (some 1 : Cell) ∈ oneHotRow n v := by
  refine List.mem_map.2 ⟨v, List.mem_range.2 h, ?_⟩
  simp

theorem rowMasked_of_take_oneHotRow (n v : ℕ) (row : List Cell)
    (hv : v < n) (h : row.take n = oneHotRow n v) : rowMasked n row = false := by
  have hmem : (some 1 : Cell) ∈ row.take n := h ▸ mem_one_oneHotRow n v hv
  rw [rowMasked]
  cases hall : (row.take n).all (fun w => decide (w = some 0)) with
  | false => rfl
  | true =>
    have := (List.all_eq_true.1 hall) _ hmem
    simp at this

theorem length_encode_feature (M : Mat) (f : List Cell) (c : ℕ) :
    (encode_feature M f c).length = M.length := by
  induction M generalizing f with
  | nil => cases f <;> rfl
  | cons row M ih =>
    cases f with
    | nil => rfl
    | cons v f => simp [encode_feature, ih]

theorem get?_encode_feature (M : Mat) (f : List Cell) (c i : ℕ) :
    (encode_feature M f c).get? i =
      match f.get? i with
      | some v => (M.get? i).map (fun r => r.set c v)
      | none => M.get? i := by
  induction M generalizing f i with
  | nil =>
    cases f with
    | nil => cases i <;> rfl
    | cons v f =>
      cases hf : (v :: f).get? i <;> simp [encode_feature, hf]
  | cons row M ih =>
    cases f with
    | nil => cases i <;> rfl
    | cons v f =>
      cases i with
      | zero => rfl
      | succ i => simpa [encode_feature] using ih f i

theorem length_applyFeatures (fs : List (List Cell)) (M : Mat) (base : ℕ) :
    (applyFeatures M base fs).length = M.length := by
  induction fs generalizing M base with
  | nil => rfl
  | cons f fs ih => simp [applyFeatures, ih, length_encode_feature]

theorem take_set_of_le (r : List Cell) (c n : ℕ) (v : Cell) (h : n ≤ c) :
    (r.set c v).take n = r.take n := by
  induction r generalizing c n with
  | nil => rfl
  | cons a t ih =>
    cases c with
    | zero =>
      have : n = 0 := Nat.le_zero.1 h
      subst this; rfl
    | succ c =>
      cases n with
      | zero => rfl
      | succ n =>
        simp only [List.set, List.take_succ_cons]
        rw [ih c n (Nat.le_of_succ_le_succ h)]

theorem take_applyFeatures (fs : List (List Cell)) (M : Mat) (base n : ℕ)
    (h : n ≤ base) (i : ℕ) :
    ((applyFeatures M base fs).get? i).map (fun r => r.take n) =
      (M.get? i).map (fun r => r.take n) := by
  induction fs generalizing M base with
  | nil => rfl
  | cons f fs ih =>
    rw [applyFeatures, ih (encode_feature M f base) (base + 1) (Nat.le_succ_of_le h)]
    rw [get?_encode_feature]
    cases hf : f.get? i with
    | none => rfl
    | some v =>
      cases hM : M.get? i with
      | none => rfl
      | some r => simp [take_set_of_le r base n v h]

theorem rows_length_encode_feature (M : Mat) (f : List Cell) (c W : ℕ)
    (h : ∀ r ∈ M, r.length = W) : ∀ r ∈ encode_feature M f c, r.length = W := by
  induction M generalizing f with
  | nil => cases f <;> simp [encode_feature]
  | cons row M ih =>
    cases f with
    | nil => exact h
    | cons v f =>
      intro r hr
      rcases List.mem_cons.1 hr with h1 | h2
      · subst h1
        rw [List.length_set]
        exact h row (List.mem_cons_self row M)
      · exact ih f (fun r hr => h r (List.mem_cons_of_mem row hr)) r h2

theorem rows_length_applyFeatures (fs : List (List Cell)) (M : Mat) (base W : ℕ)
    (h : ∀ r ∈ M, r.length = W) : ∀ r ∈ applyFeatures M base fs, r.length = W := by
  induction fs generalizing M base with
  | nil => exact h
  | cons f fs ih =>
    exact ih (encode_feature M f base) (base + 1)
      (rows_length_encode_feature M f base W h)

theorem length_zeroFirstCols (row : List Cell) (n : ℕ) :
    (zeroFirstCols row n).length = row.length := by
  induction row generalizing n with
  | nil => cases n <;> rfl
  | cons v row ih =>
    cases n with
    | zero => rfl
    | succ n => simp [zeroFirstCols, ih]

theorem take_zeroFirstCols (row : List Cell) (n : ℕ) (h : n ≤ row.length) :
    (zeroFirstCols row n).take n = List.replicate n (some 0) := by
  induction row generalizing n with
  | nil =>
    have : n = 0 := by simpa using h
    subst this; rfl
  | cons v row ih =>
    cases n with
    | zero => rfl
    | succ n =>
      simp only [zeroFirstCols, List.take_succ_cons, List.replicate_succ]
      rw [ih n (by simpa using h)]

theorem get?_zeroFirstCols_ge (row : List Cell) (n j : ℕ) (h : n ≤ j) :
    (zeroFirstCols row n).get? j = row.get? j := by
  induction row generalizing n j with
  | nil => cases n <;> rfl
  | cons v row ih =>
    cases n with
    | zero => rfl
    | succ n =>
      cases j with
      | zero => omega
      | succ j => simpa [zeroFirstCols] using ih n j (Nat.le_of_succ_le_succ h)

theorem rowMasked_zeroFirstCols (row : List Cell) (n : ℕ) (h : n ≤ row.length) :
    rowMasked n (zeroFirstCols row n) = true := by
  rw [rowMasked, take_zeroFirstCols row n h]
  rw [List.all_eq_true]
  intro v hv
  have := List.eq_of_mem_replicate hv
  simp [this]

theorem length_maskRow (M : Mat) (i n : ℕ) : (maskRow M i n).length = M.length := by
  induction M generalizing i with
  | nil => cases i <;> rfl
  | cons row M ih =>
    cases i with
    | zero => rfl
    | succ i => simp [maskRow, ih]

theorem get?_maskRow_ne (M : Mat) (i n j : ℕ) (h : j ≠ i) :
    (maskRow M i n).get? j = M.get? j := by
  induction M generalizing i j with
  | nil => cases i <;> rfl
  | cons row M ih =>
    cases i with
    | zero =>
      cases j with
      | zero => omega
      | succ j => rfl
    | succ i =>
      cases j with
      | zero => rfl
      | succ j => simpa [maskRow] using ih i j (by omega)

theorem get?_maskRow_eq (M : Mat) (i n : ℕ) :
    (maskRow M i n).get? i = (M.get? i).map (fun r => zeroFirstCols r n) := by
  induction M generalizing i with
  | nil => cases i <;> rfl
  | cons row M ih =>
    cases i with
    | zero => rfl
    | succ i => simpa [maskRow] using ih i

theorem firstIdxSat_eq_some {α : Type} (p : α → Bool) (l : List α) (k : ℕ)
    (hbefore : ∀ j, j < k → ∃ b, l.get? j = some b ∧ p b = false)
    (hat : ∃ a, l.get? k = some a ∧ p a = true) :
    firstIdxSat p l = some k := by
  induction l generalizing k with
  | nil =>
    rcases hat with ⟨a, ha, _⟩
    cases k <;> simp at ha
  | cons x l ih =>
    cases k with
    | zero =>
      rcases hat with ⟨a, ha, hp⟩
      have : a = x := by simpa using ha.symm
      subst this
      simp [firstIdxSat, hp]
    | succ k =>
      rcases hbefore 0 (Nat.succ_pos k) with ⟨b, hb, hpb⟩
      have hbx : b = x := by simpa using hb.symm
      subst hbx
      rw [firstIdxSat, if_neg (by simp [hpb])]
      rw [ih k (fun j hj => hbefore (j + 1) (by omega)) hat]
      rfl

/-! ### Lemmas for listMaxD -/

theorem le_foldl_max (t : List ℤ) (b : ℤ) : b ≤ t.foldl max b := by
  induction t generalizing b with
  | nil => exact le_refl b
  | cons c t ih => exact le_trans (le_max_left b c) (ih (max b c))

theorem mem_le_foldl_max (t : List ℤ) (b a : ℤ) (h : a ∈ t) :
    a ≤ t.foldl max b := by
  induction t generalizing b with
  | nil => simp at h
  | cons c t ih =>
    rcases List.mem_cons.1 h with h1 | h2
    · subst h1
      exact le_trans (le_max_right b a) (le_foldl_max t (max b a))
    · exact ih (max b c) h2

theorem mem_le_listMaxD (l : List ℤ) (a : ℤ) (h : a ∈ l) : a ≤ listMaxD l := by
  cases l with
  | nil => simp at h
  | cons b t =>
    rcases List.mem_cons.1 h with h1 | h2
    · subst h1; exact le_foldl_max t a
    · exact mem_le_foldl_max t b a h2

/-! ### Lemmas for the python dict model -/

theorem find?_append_match {α : Type} (l₁ l₂ : List α) (p : α → Bool) :
    (l₁ ++ l₂).find? p =
      match l₁.find? p with
      | some a => some a
      | none => l₂.find? p := by
  induction l₁ with
  | nil => simp
  | cons x l ih =>
    cases hx : p x with
    | true => simp [List.find?_cons_of_pos _ hx]
    | false =>
      have hneg : ¬ p x = true := by simp [hx]
      rw [List.cons_append, List.find?_cons_of_neg (l ++ l₂) hneg,
        List.find?_cons_of_neg l hneg, ih]

theorem find?_eq_head_filter {α : Type} (l : List α) (p : α → Bool) :
    l.find? p = (l.filter p).head? := by
  induction l with
  | nil => rfl
  | cons x l ih =>
    cases hx : p x with
    | true => simp [List.find?_cons_of_pos _ hx, List.filter_cons, hx]
    | false =>
      have hneg : ¬ p x = true := by simp [hx]
      rw [List.find?_cons_of_neg l hneg, List.filter_cons, if_neg hneg, ih]

theorem find?_reverse_eq_getLast_filter {α : Type} (l : List α) (p : α → Bool) :
    l.reverse.find? p = (l.filter p).getLast? := by
  rw [find?_eq_head_filter, List.filter_reverse, ← List.head?_reverse]

theorem find?_map_upd_ne {α β : Type} [DecidableEq α] (l : List (α × β))
    (k a : α) (v : β) (hne : a ≠ k) :
    (l.map (fun p => if p.1 = k then (k, v) else p)).find?
        (fun p => decide (p.1 = a)) =
      l.find? (fun p => decide (p.1 = a)) := by
  induction l with
  | nil => rfl
  | cons x l ih =>
    by_cases hx : x.1 = k
    · simp only [List.map_cons, if_pos hx]
      rw [List.find?_cons_of_neg _ (by simp [Ne.symm hne]),
        List.find?_cons_of_neg _ (by simp [hx, Ne.symm hne])]
      exact ih
    · simp only [List.map_cons, if_neg hx]
      by_cases hxa : x.1 = a
      · rw [List.find?_cons_of_pos _ (by simp [hxa]),
          List.find?_cons_of_pos _ (by simp [hxa])]
      · rw [List.find?_cons_of_neg _ (by simp [hxa]),
          List.find?_cons_of_neg _ (by simp [hxa])]
        exact ih

theorem find?_map_upd_eq {α β : Type} [DecidableEq α] (l : List (α × β))
    (k : α) (v : β) (h : l.any (fun p => decide (p.1 = k)) = true) :
    (l.map (fun p => if p.1 = k then (k, v) else p)).find?
        (fun p => decide (p.1 = k)) = some (k, v) := by
  induction l with
  | nil => simp at h
  | cons x l ih =>
    by_cases hx : x.1 = k
    · simp only [List.map_cons, if_pos hx]
      rw [List.find?_cons_of_pos _ (by simp)]
    · simp only [List.map_cons, if_neg hx]
      rw [List.find?_cons_of_neg _ (by simp [hx])]
      apply ih
      rcases List.any_eq_true.1 h with ⟨p, hp, hpk⟩
      rcases List.mem_cons.1 hp with h1 | h2
      · subst h1; simp [hx] at hpk
      · exact List.any_eq_true.2 ⟨p, h2, hpk⟩

theorem find?_pyDictUpd {α β : Type} [DecidableEq α] (l : List (α × β))
    (k a : α) (v : β) :
    (pyDictUpd l k v).find? (fun p => decide (p.1 = a)) =
      if a = k then some (k, v) else l.find? (fun p => decide (p.1 = a)) := by
  rw [pyDictUpd]
  by_cases hany : l.any (fun p => decide (p.1 = k)) = true
  · rw [if_pos hany]
    by_cases hak : a = k
    · subst hak; rw [if_pos rfl, find?_map_upd_eq l a v hany]
    · rw [if_neg hak, find?_map_upd_ne l k a v hak]
  · rw [if_neg hany, find?_append_match]
    by_cases hak : a = k
    · subst hak
      have hnone : l.find? (fun p => decide (p.1 = a)) = none := by
        rw [List.find?_eq_none]
        intro p hp
        simp only [decide_eq_true_eq]
        intro hpa
        exact hany (List.any_eq_true.2 ⟨p, hp, by simp [hpa]⟩)
      rw [hnone, if_pos rfl]
      simp [List.find?]
    · rw [if_neg hak]
      cases hfl : l.find? (fun p => decide (p.1 = a)) with
      | some e => rfl
      | none => simp [List.find?, Ne.symm hak]

theorem find?_pyDictFrom {α β : Type} [DecidableEq α] (ps : List (α × β)) :
    ∀ (acc : List (α × β)) (a : α),
      (pyDictFrom acc ps).find? (fun p => decide (p.1 = a)) =
        match ps.reverse.find? (fun p => decide (p.1 = a)) with
        | some e => some e
        | none => acc.find? (fun p => decide (p.1 = a)) := by
  induction ps with
  | nil => intro acc a; simp [pyDictFrom]
  | cons x ps ih =>
    intro acc a
    rw [pyDictFrom, ih, List.reverse_cons, find?_append_match]
    cases hr : ps.reverse.find? (fun p => decide (p.1 = a)) with
    | some e => rfl
    | none =>
      rw [find?_pyDictUpd]
      by_cases hax : a = x.1
      · rw [if_pos hax]
        have hfx : List.find? (fun p => decide (p.1 = a)) [x] = some x :=
          List.find?_cons_of_pos _ (by simp [hax])
        rw [hfx]
      · rw [if_neg hax]
        have hfx : List.find? (fun p => decide (p.1 = a)) [x] = none := by
          rw [List.find?_eq_none]
          intro b hb
          have : b = x := by simpa using hb
          subst this
          simp [Ne.symm hax]
        rw [hfx]

theorem find?_pyDict {α β : Type} [DecidableEq α] (ps : List (α × β)) (a : α) :
    (pyDict ps).find? (fun p => decide (p.1 = a)) =
      ps.reverse.find? (fun p => decide (p.1 = a)) := by
  rw [pyDict, find?_pyDictFrom]
  cases hr : ps.reverse.find? (fun p => decide (p.1 = a)) <;> rfl

theorem keys_pyDictUpd {α β : Type} [DecidableEq α] (l : List (α × β))
    (k : α) (v : β) :
    (pyDictUpd l k v).map Prod.fst =
      if l.any (fun p => decide (p.1 = k)) = true then l.map Prod.fst
      else l.map Prod.fst ++ [k] := by
  rw [pyDictUpd]
  by_cases hany : l.any (fun p => decide (p.1 = k)) = true
  · rw [if_pos hany, if_pos hany, List.map_map]
    apply List.map_congr_left
    intro p hp
    by_cases hpk : p.1 = k
    · simp [Function.comp, hpk]
    · simp [Function.comp, hpk]
  · rw [if_neg hany, if_neg hany, List.map_append]
    rfl

theorem nodup_keys_pyDictUpd {α β : Type} [DecidableEq α] (l : List (α × β))
    (k : α) (v : β) (h : (l.map Prod.fst).Nodup) :
    ((pyDictUpd l k v).map Prod.fst).Nodup := by
  rw [keys_pyDictUpd]
  by_cases hany : l.any (fun p => decide (p.1 = k)) = true
  · rw [if_pos hany]; exact h
  · rw [if_neg hany]
    refine h.append (List.nodup_singleton k) ?_
    intro a ha hk
    have hak : a = k := by simpa using hk
    subst hak
    rcases List.mem_map.1 ha with ⟨p, hp, hfst⟩
    exact hany (List.any_eq_true.2 ⟨p, hp, by simp [hfst]⟩)

theorem nodup_keys_pyDictFrom {α β : Type} [DecidableEq α] (ps : List (α × β)) :
    ∀ acc : List (α × β), (acc.map Prod.fst).Nodup →
      ((pyDictFrom acc ps).map Prod.fst).Nodup := by
  induction ps with
  | nil => intro acc h; exact h
  | cons x ps ih =>
    intro acc h
    exact ih (pyDictUpd acc x.1 x.2) (nodup_keys_pyDictUpd acc x.1 x.2 h)

theorem nodup_keys_pyDict {α β : Type} [DecidableEq α] (ps : List (α × β)) :
    ((pyDict ps).map Prod.fst).Nodup :=
  nodup_keys_pyDictFrom ps [] (by simp)

theorem mem_iff_find?_of_nodup {α β : Type} [DecidableEq α] (l : List (α × β))
    (k : α) (b : β) :
    (l.map Prod.fst).Nodup →
      ((k, b) ∈ l ↔ l.find? (fun p => decide (p.1 = k)) = some (k, b)) := by
  induction l with
  | nil => intro h; simp
  | cons x l ih =>
    intro h
    rw [List.map_cons, List.nodup_cons] at h
    obtain ⟨hx, hl⟩ := h
    constructor
    · intro he
      rcases List.mem_cons.1 he with h1 | h2
      · rw [← h1]
        exact List.find?_cons_of_pos _ (by simp)
      · by_cases hxk : x.1 = k
        · exfalso
          apply hx
          rw [hxk]
          exact List.mem_map.2 ⟨(k, b), h2, rfl⟩
        · rw [List.find?_cons_of_neg _ (by simp [hxk])]
          exact (ih hl).1 h2
    · intro hf
      by_cases hxk : x.1 = k
      · rw [List.find?_cons_of_pos _ (by simp [hxk])] at hf
        have : x = (k, b) := by simpa using hf
        rw [← this]
        exact List.mem_cons_self x l
      · rw [List.find?_cons_of_neg _ (by simp [hxk])] at hf
        exact List.mem_cons_of_mem x ((ih hl).2 hf)

theorem val_unique_of_nodup {α β : Type} [DecidableEq α] (l : List (α × β))
    (k : α) (a b : β) (h : (l.map Prod.fst).Nodup)
    (ha : (k, a) ∈ l) (hb : (k, b) ∈ l) : a = b := by
  have h1 := (mem_iff_find?_of_nodup l k a h).1 ha
  have h2 := (mem_iff_find?_of_nodup l k b h).1 hb
  have := h1.symm.trans h2
  simpa using this

theorem mem_of_mem_pyDict {α β : Type} [DecidableEq α] (ps : List (α × β))
    (e : α × β) (he : e ∈ pyDict ps) : e ∈ ps := by
  have hn := nodup_keys_pyDict ps
  have h1 : (pyDict ps).find? (fun p => decide (p.1 = e.1)) = some (e.1, e.2) := by
    rw [Prod.mk.eta]
    exact (mem_iff_find?_of_nodup (pyDict ps) e.1 e.2 hn).1 (by rw [Prod.mk.eta]; exact he)
  rw [find?_pyDict, Prod.mk.eta] at h1
  exact List.mem_reverse.1 (List.mem_of_find?_eq_some h1)

theorem mem_keys_pyDict {α β : Type} [DecidableEq α] (ps : List (α × β)) (a : α) :
    a ∈ (pyDict ps).map Prod.fst ↔ a ∈ ps.map Prod.fst := by
  constructor
  · intro h
    rcases List.mem_map.1 h with ⟨e, he, hfst⟩
    exact List.mem_map.2 ⟨e, mem_of_mem_pyDict ps e he, hfst⟩
  · intro h
    rcases List.mem_map.1 h with ⟨e, he, hfst⟩
    have hsome : (ps.reverse.find? (fun p => decide (p.1 = a))).isSome := by
      rw [List.find?_isSome]
      exact ⟨e, List.mem_reverse.2 he, by simp [hfst]⟩
    rw [← find?_pyDict] at hsome
    cases hf : (pyDict ps).find? (fun p => decide (p.1 = a)) with
    | none => rw [hf] at hsome; simp at hsome
    | some e2 =>
      have he2 := List.mem_of_find?_eq_some hf
      have hk : e2.1 = a := by simpa using List.find?_some hf
      exact hk ▸ List.mem_map.2 ⟨e2, he2, rfl⟩

/-! ### The category block of a generated example -/

theorem rowMasked_of_take_replicate (row : List Cell) (n : ℕ)
    (h : row.take n = List.replicate n (some 0)) : rowMasked n row = true := by
  rw [rowMasked, h, List.all_eq_true]
  intro v hv
  have := List.eq_of_mem_replicate hv
  simp [this]

theorem block_unmasked (sequence : List ℕ) (features : List (List Cell))
    (nf nfeat maxlen idx : ℕ) (hsub : nf ≤ nfeat) (p : ℕ) (hp : p ≠ idx) :
    ((generate_example sequence features nf nfeat maxlen idx).1.get? p).map
        (fun r => r.take nf) =
      ((padSeq sequence maxlen).get? p).map (oneHotRow nf) := by
  show ((maskRow (applyFeatures
      (one_hot_encode (padSeq sequence maxlen) nfeat) nf features)
      idx nf).get? p).map (fun r => r.take nf) = _
  rw [get?_maskRow_ne _ idx nf p hp,
    take_applyFeatures features _ nf nf (le_refl nf) p, get?_one_hot,
    Option.map_map]
  cases hpp : (padSeq sequence maxlen).get? p with
  | none => rfl
  | some v => simp [Function.comp, take_oneHotRow nfeat nf v hsub]

theorem block_masked (sequence : List ℕ) (features : List (List Cell))
    (nf nfeat maxlen idx : ℕ) (hsub : nf ≤ nfeat) (hidx : idx < maxlen) :
    ((generate_example sequence features nf nfeat maxlen idx).1.get? idx).map
        (fun r => r.take nf) = some (List.replicate nf (some 0)) := by
  show ((maskRow (applyFeatures
      (one_hot_encode (padSeq sequence maxlen) nfeat) nf features)
      idx nf).get? idx).map (fun r => r.take nf) = _
  rw [get?_maskRow_eq]
  have hlenM : (applyFeatures (one_hot_encode (padSeq sequence maxlen) nfeat)
      nf features).length = maxlen := by
    rw [length_applyFeatures, length_one_hot, length_padSeq]
  have hrows : ∀ r ∈ applyFeatures (one_hot_encode (padSeq sequence maxlen) nfeat)
      nf features, r.length = nfeat := by
    apply rows_length_applyFeatures
    intro r hr
    rcases List.mem_map.1 hr with ⟨v, _, hv⟩
    rw [← hv, length_oneHotRow]
  cases hM : (applyFeatures (one_hot_encode (padSeq sequence maxlen) nfeat)
      nf features).get? idx with
  | none =>
    exfalso
    have := List.get?_eq_none.1 hM
    omega
  | some r =>
    have hmem : r ∈ _ := List.get?_mem hM
    have hrl : r.length = nfeat := hrows r hmem
    simp only [Option.map_map, Option.map_some']
    show some ((zeroFirstCols r nf).take nf) = _
    rw [take_zeroFirstCols r nf (by omega)]

/-! ### Claim theorems -/

/-- Claim C2: the generate_data filter keeps a genome exactly when the set
of its encoded categories without 0 has at least four elements and
category 1 stands at the first or the last gene position; the concrete
genome with categories 3, 1, 5, 0, 2 is excluded by the boundary test even
though its category count is four. -/
theorem c2_filter_iff :
    (∀ (enc : ℕ → ℕ) (gs : List (String × Genome)) (e : String × Genome),
      e ∈ generate_data_filter enc gs ↔
        e ∈ gs ∧ (4 ≤ ((categoriesOf enc e.2).toFinset.erase 0).card ∧
          ((categoriesOf enc e.2).head? = some 1 ∨
            (categoriesOf enc e.2).getLast? = some 1))) ∧
    (keepGenomeB (fun n => n) ⟨1, [3, 1, 5, 0, 2], [], [], []⟩ = false ∧
      4 ≤ ((categoriesOf (fun n => n)
        ⟨1, [3, 1, 5, 0, 2], [], [], []⟩).toFinset.erase 0).card) := by
  refine ⟨?_, by decide, by decide⟩
  intro enc gs e
  rw [generate_data_filter, List.mem_filter, keepGenomeB]
  simp [Bool.and_eq_true, Bool.or_eq_true, decide_eq_true_eq]

/-- Claim C3, amended: flip_genomes reverses the genome exactly when the
encoded category at the last gene position is 1, regardless of the first
position.  When it flips, phrog and protein orders are reversed, strands
are flipped and reversed, and each span (s, e) becomes
(abs (length - e), abs (length - s)) with the order reversed; when the
last category is not 1 the genome is returned unchanged. -/
theorem c3_flip_genomes (enc : ℕ → ℕ) (g : Genome) :
    ((categoriesOf enc g).getLast? = some 1 →
      (flip_genomes enc g).length = g.length ∧
      (flip_genomes enc g).phrogs = g.phrogs.reverse ∧
      (flip_genomes enc g).protein_id = g.protein_id.reverse ∧
      (flip_genomes enc g).sense = (g.sense.map flipChar).reverse ∧
      (flip_genomes enc g).position =
        (g.position.map (reflectSpan g.length)).reverse) ∧
    ((categoriesOf enc g).getLast? ≠ some 1 → flip_genomes enc g = g) := by
  constructor
  · intro h
    rw [flip_genomes, if_pos h]
    refine ⟨rfl, rfl, rfl, ?_, ?_⟩
    · exact List.map_reverse flipChar g.sense
    · exact List.map_reverse (reflectSpan g.length) g.position
  · intro h
    rw [flip_genomes, if_neg h]

/-- Claim C3, counterexample: a genome whose category sequence is 1, 2, 1
carries the boundary marker at both ends; the claim says such a genome is
returned unchanged, but flip_genomes flips it. -/
theorem c3_counterexample :
    (categoriesOf (fun n => n)
      ⟨50, [1, 2, 1], ["a", "b", "c"], ['+', '+', '+'],
        [(0, 10), (20, 30), (40, 50)]⟩).head? = some 1 ∧
    (categoriesOf (fun n => n)
      ⟨50, [1, 2, 1], ["a", "b", "c"], ['+', '+', '+'],
        [(0, 10), (20, 30), (40, 50)]⟩).getLast? = some 1 ∧
    flip_genomes (fun n => n)
      ⟨50, [1, 2, 1], ["a", "b", "c"], ['+', '+', '+'],
        [(0, 10), (20, 30), (40, 50)]⟩ ≠
      ⟨50, [1, 2, 1], ["a", "b", "c"], ['+', '+', '+'],
        [(0, 10), (20, 30), (40, 50)]⟩ := by
  decide

/-- Claim C5, the code at the failing input: on the category sequence
1, 0, 0 every index the mask loop may draw (1 or 2) carries category 0, so
the rejection loop of generate_dataset returns no index on any stream of
in-range draws, however long: the while loop never exits and nothing caps
the attempts or excludes the genome. -/
theorem c5_loop_never_terminates : neverTerminates [1, 0, 0] := by
  intro draws h
  induction draws with
  | nil => rfl
  | cons d ds ih =>
    obtain ⟨h1, h2⟩ := h d (List.mem_cons_self d ds)
    have h2b : d ≤ 2 := by simpa using h2
    have hd : ([1, 0, 0] : List ℕ).getD d 0 = 0 := by
      interval_cases d <;> rfl
    show (if ([1, 0, 0] : List ℕ).getD d 0 = 0 then drawLoop [1, 0, 0] ds
      else some d) = none
    rw [hd, if_pos rfl]
    exact ih (fun x hx => h x (List.mem_cons_of_mem d hx))

/-- Claim C6, the code at the failing input: a dataset whose only genome
has one zero-length gene has dataset-wide maximum gene length 0, and the
length normalization divides 0 by 0, producing the undefined value (NaN in
numpy) instead of leaving the feature unchanged. -/
theorem c6_divzero_undefined :
    geneLengths ⟨5, [7], ["p"], ['+'], [(2, 2)]⟩ = [0] ∧
    maxLenScalar [⟨5, [7], ["p"], ['+'], [(2, 2)]⟩] = 0 ∧
    lengthFeat [⟨5, [7], ["p"], ['+'], [(2, 2)]⟩]
      ⟨5, [7], ["p"], ['+'], [(2, 2)]⟩ = [none] := by
  refine ⟨by decide, by decide, ?_⟩
  simp [lengthFeat, geneLengths, maxLenScalar, listMaxD, npDiv]

/-- Claim C9: applying the coordinate reflection of flip_genomes twice,
each time mapping a span (s, e) to (abs (e - length), abs (s - length))
over the reversed list, recovers the original position list, for any
genome whose span coordinates lie between 0 and the genome length. -/
theorem c9_reflect_roundtrip (L : ℤ) (ps : List (ℤ × ℤ))
    (h : ∀ p ∈ ps, 0 ≤ p.1 ∧ p.1 ≤ L ∧ 0 ≤ p.2 ∧ p.2 ≤ L) :
    flipPositions L (flipPositions L ps) = ps := by
  rw [flipPositions, flipPositions, List.map_reverse, List.map_map,
    List.map_reverse, List.reverse_reverse]
  have hpt : ∀ p ∈ ps, (reflectSpan L ∘ reflectSpan L) p = id p := by
    intro p hp
    obtain ⟨h1, h2, h3, h4⟩ := h p hp
    simp only [Function.comp, reflectSpan, id]
    have e1 : |p.1 - L| = L - p.1 := by
      rw [abs_of_nonpos (by omega : p.1 - L ≤ 0)]; ring
    have e2 : |p.2 - L| = L - p.2 := by
      rw [abs_of_nonpos (by omega : p.2 - L ≤ 0)]; ring
    rw [e1, e2]
    have e3 : L - p.1 - L = -p.1 := by ring
    have e4 : L - p.2 - L = -p.2 := by ring
    rw [e3, e4, abs_neg, abs_neg, abs_of_nonneg h1, abs_of_nonneg h3]
  rw [List.map_congr_left hpt, List.map_id]

/-- Claim C9, witness: the round trip at a concrete genome of three spans
and length 50. -/
theorem c9_witness :
    flipPositions 50 (flipPositions 50 [(0, 10), (20, 30), (40, 50)]) =
      [(0, 10), (20, 30), (40, 50)] :=
  c9_reflect_roundtrip 50 [(0, 10), (20, 30), (40, 50)] (by decide)

theorem count_eq_one_of_nodup_mem {α : Type} [BEq α] [LawfulBEq α]
    (l : List α) (a : α) (h : l.Nodup) (hm : a ∈ l) : l.count a = 1 := by
  induction l with
  | nil => simp at hm
  | cons b l ih =>
    rw [List.count_cons]
    rcases List.mem_cons.1 hm with h1 | h2
    · subst h1
      have hnot : a ∉ l := (List.nodup_cons.1 h).1
      rw [List.count_eq_zero.2 hnot]
      simp
    · have hb : ¬ (b == a) = true := by
        intro hba
        have : b = a := by simpa using hba
        subst this
        exact (List.nodup_cons.1 h).1 h2
      rw [ih (List.nodup_cons.1 h).2 h2, if_neg hb]

theorem count_pos_mem {α : Type} [BEq α] [LawfulBEq α]
    (l : List α) (a : α) (h : l.count a = 1) : a ∈ l := by
  by_contra hno
  rw [List.count_eq_zero.2 hno] at h
  omega

theorem lookupG_eq (training : List (String × Genome)) (k : String) (g : Genome)
    (hnd : (training.map Prod.fst).Nodup) (hmem : (k, g) ∈ training) :
    lookupG training k = some g := by
  rw [lookupG, (mem_iff_find?_of_nodup training k g hnd).1 hmem]
  rfl

theorem derep_slot_facts (enc : ℕ → ℕ) (training : List (String × Genome))
    (hnd : (training.map Prod.fst).Nodup) (e : String × String)
    (he : e ∈ pyDict (training.map (fun p => (sigOf enc p.2, p.1)))) :
    ∃ g : Genome, lookupG training e.2 = some g ∧ sigOf enc g = e.1 ∧
      (e.2, g) ∈ training := by
  have hmem := mem_of_mem_pyDict _ e he
  rcases List.mem_map.1 hmem with ⟨p, hp, hpe⟩
  have h1 : e.1 = sigOf enc p.2 := by rw [← hpe]
  have h2 : e.2 = p.1 := by rw [← hpe]
  refine ⟨p.2, ?_, h1.symm, ?_⟩
  · rw [h2]
    exact lookupG_eq training p.1 p.2 hnd (by rw [Prod.mk.eta]; exact hp)
  · rw [h2, Prod.mk.eta]
    exact hp

/-- Claim C4: derep_trainingdata keys every genome by the concatenation of
its strand string and its category string; the output genomes have
pairwise distinct signatures, every signature of the input appears exactly
once in the output, and the representative kept for a signature is the
last entry of the input carrying it, in insertion order. -/
theorem c4_derep (enc : ℕ → ℕ) (training : List (String × Genome))
    (hnd : (training.map Prod.fst).Nodup) :
    ((derep_trainingdata enc training).map
      (fun p => p.2.map (sigOf enc))).Nodup ∧
    (∀ s : String,
      s ∈ training.map (fun p => sigOf enc p.2) ↔
        ((derep_trainingdata enc training).map
          (fun p => p.2.map (sigOf enc))).count (some s) = 1) ∧
    (∀ e ∈ derep_trainingdata enc training, ∃ g : Genome,
      e.2 = some g ∧
        (training.filter
          (fun p => decide (sigOf enc p.2 = sigOf enc g))).getLast? =
          some (e.1, g)) := by
  have hout : (derep_trainingdata enc training).map (fun p => p.2.map (sigOf enc))
      = ((pyDict (training.map (fun p => (sigOf enc p.2, p.1)))).map
          Prod.fst).map some := by
    rw [derep_trainingdata, List.map_map, List.map_map, List.map_map]
    apply List.map_congr_left
    intro e he
    rcases derep_slot_facts enc training hnd e he with ⟨g, hg, hsg, _⟩
    show (lookupG training e.2).map (sigOf enc) = some e.1
    rw [hg]
    simp [hsg]
  have hnodup_out : ((derep_trainingdata enc training).map
      (fun p => p.2.map (sigOf enc))).Nodup := by
    rw [hout]
    exact (nodup_keys_pyDict _).map (Option.some_injective String)
  have hps : (training.map (fun p => (sigOf enc p.2, p.1))).map Prod.fst
      = training.map (fun p => sigOf enc p.2) := by
    rw [List.map_map]
    rfl
  refine ⟨hnodup_out, ?_, ?_⟩
  · intro s
    constructor
    · intro hs
      rw [hout]
      apply count_eq_one_of_nodup_mem _ _ ((nodup_keys_pyDict _).map
        (Option.some_injective String))
      apply List.mem_map_of_mem some
      rw [mem_keys_pyDict, hps]
      exact hs
    · intro hc
      rw [hout] at hc
      have hpos := count_pos_mem _ _ hc
      rcases List.mem_map.1 hpos with ⟨a, ha, hae⟩
      have : a = s := by simpa using hae
      subst this
      rw [mem_keys_pyDict, hps] at ha
      exact ha
  · intro e he
    rw [derep_trainingdata] at he
    rcases List.mem_map.1 he with ⟨k, hk, hke⟩
    rcases List.mem_map.1 hk with ⟨slot, hslot, hsk⟩
    rcases derep_slot_facts enc training hnd slot hslot with ⟨g, hg, hsg, hmemg⟩
    have he2 : e.2 = some g := by
      rw [← hke]
      show lookupG training k = some g
      rw [← hsk]
      exact hg
    have he1 : e.1 = slot.2 := by rw [← hke, ← hsk]
    refine ⟨g, he2, ?_⟩
    have hfind : (pyDict (training.map (fun p => (sigOf enc p.2, p.1)))).find?
        (fun p => decide (p.1 = slot.1)) = some (slot.1, slot.2) :=
      (mem_iff_find?_of_nodup _ slot.1 slot.2 (nodup_keys_pyDict _)).1
        (by rw [Prod.mk.eta]; exact hslot)
    rw [find?_pyDict] at hfind
    have hrevmap : (training.map (fun p => (sigOf enc p.2, p.1))).reverse
        = training.reverse.map (fun p => (sigOf enc p.2, p.1)) :=
      (List.map_reverse _ _).symm
    rw [hrevmap, List.find?_map] at hfind
    rcases Option.map_eq_some'.1 hfind with ⟨p0, hp0, hp0e⟩
    have hp0k : p0.1 = slot.2 := by
      have := congrArg Prod.snd hp0e
      simpa using this
    have hp0mem : p0 ∈ training :=
      List.mem_reverse.1 (List.mem_of_find?_eq_some hp0)
    have hp0g : p0.2 = g := by
      apply val_unique_of_nodup training slot.2 p0.2 g hnd
      · rw [← hp0k, Prod.mk.eta]
        exact hp0mem
      · exact hmemg
    have hp0' : training.reverse.find?
        (fun p => decide (sigOf enc p.2 = sigOf enc g)) = some p0 := by
      rw [hsg]
      exact hp0
    rw [find?_reverse_eq_getLast_filter] at hp0'
    rw [hp0']
    congr 1
    rw [he1, ← hp0k, ← hp0g, Prod.mk.eta]

/-- Claim C4, witness: two concrete genomes with the same strand and
category strings but different positions collapse to the later entry. -/
theorem c4_witness :
    ((derep_trainingdata (fun n => n)
      [("A", ⟨40, [1, 2], ["x", "y"], ['+', '-'], [(0, 10), (20, 30)]⟩),
       ("B", ⟨60, [1, 2], ["u", "w"], ['+', '-'], [(5, 15), (25, 35)]⟩)]).map
        (fun p => p.2.map (sigOf (fun n => n)))).Nodup ∧
    (∀ e ∈ derep_trainingdata (fun n => n)
      [("A", ⟨40, [1, 2], ["x", "y"], ['+', '-'], [(0, 10), (20, 30)]⟩),
       ("B", ⟨60, [1, 2], ["u", "w"], ['+', '-'], [(5, 15), (25, 35)]⟩)],
      ∃ g : Genome, e.2 = some g ∧
        ([("A", ⟨40, [1, 2], ["x", "y"], ['+', '-'], [(0, 10), (20, 30)]⟩),
          ("B", ⟨60, [1, 2], ["u", "w"], ['+', '-'], [(5, 15), (25, 35)]⟩)].filter
          (fun p => decide (sigOf (fun n => n) p.2 = sigOf (fun n => n) g))).getLast? =
          some (e.1, g)) :=
  ⟨(c4_derep (fun n => n)
      [("A", ⟨40, [1, 2], ["x", "y"], ['+', '-'], [(0, 10), (20, 30)]⟩),
       ("B", ⟨60, [1, 2], ["u", "w"], ['+', '-'], [(5, 15), (25, 35)]⟩)]
      (by decide)).1,
   (c4_derep (fun n => n)
      [("A", ⟨40, [1, 2], ["x", "y"], ['+', '-'], [(0, 10), (20, 30)]⟩),
       ("B", ⟨60, [1, 2], ["u", "w"], ['+', '-'], [(5, 15), (25, 35)]⟩)]
      (by decide)).2.2⟩

/-- Claim C1, amended: in the input tensor of generate_example the masked
row idx is the only row of the whole padded tensor whose first
num_functions columns are all zero; every other valid row keeps the
one-hot of its true category, while every padding row carries the one-hot
of category 0, that is a 1 in column 0 rather than an all-zero block; and
the target tensor at idx is the one-hot of the true pre-mask category. -/
theorem c1_masking (sequence : List ℕ) (features : List (List Cell))
    (nf nfeat maxlen idx : ℕ)
    (hv : ∀ v ∈ sequence, v < nf)
    (hlen : sequence.length ≤ maxlen)
    (hidx : idx < sequence.length)
    (hnf : 0 < nf)
    (hsub : nf ≤ nfeat) :
    (((generate_example sequence features nf nfeat maxlen idx).1.get? idx).map
        (fun r => r.take nf) = some (List.replicate nf (some 0))) ∧
    (∀ p, p < sequence.length → p ≠ idx →
      ((generate_example sequence features nf nfeat maxlen idx).1.get? p).map
        (fun r => r.take nf) = (sequence.get? p).map (oneHotRow nf)) ∧
    (∀ p, sequence.length ≤ p → p < maxlen →
      ((generate_example sequence features nf nfeat maxlen idx).1.get? p).map
        (fun r => r.take nf) = some (oneHotRow nf 0)) ∧
    (∀ p, p < maxlen →
      (rowMasked nf
          ((generate_example sequence features nf nfeat maxlen idx).1.getD p [])
        = true ↔ p = idx)) ∧
    ((generate_example sequence features nf nfeat maxlen idx).2.get? idx =
      (sequence.get? idx).map (oneHotRow nf)) := by
  have hXlen : (generate_example sequence features nf nfeat maxlen idx).1.length
      = maxlen := by
    show (maskRow (applyFeatures
      (one_hot_encode (padSeq sequence maxlen) nfeat) nf features)
      idx nf).length = maxlen
    rw [length_maskRow, length_applyFeatures, length_one_hot, length_padSeq]
  have hmask := block_masked sequence features nf nfeat maxlen idx hsub
    (by omega)
  have hunmask : ∀ p, p < sequence.length → p ≠ idx →
      ((generate_example sequence features nf nfeat maxlen idx).1.get? p).map
        (fun r => r.take nf) = (sequence.get? p).map (oneHotRow nf) := by
    intro p hp hne
    rw [block_unmasked sequence features nf nfeat maxlen idx hsub p hne,
      get?_padSeq_lt sequence maxlen p hlen hp]
  have hpad : ∀ p, sequence.length ≤ p → p < maxlen →
      ((generate_example sequence features nf nfeat maxlen idx).1.get? p).map
        (fun r => r.take nf) = some (oneHotRow nf 0) := by
    intro p hp1 hp2
    have hne : p ≠ idx := by omega
    rw [block_unmasked sequence features nf nfeat maxlen idx hsub p hne,
      get?_padSeq_pad sequence maxlen p hlen hp1 hp2]
    rfl
  refine ⟨hmask, hunmask, hpad, ?_, ?_⟩
  · intro p hp
    have hrow : ∃ row,
        (generate_example sequence features nf nfeat maxlen idx).1.get? p
          = some row := by
      cases hM : (generate_example sequence features nf nfeat maxlen idx).1.get? p
        with
      | none =>
        exfalso
        have := List.get?_eq_none.1 hM
        omega
      | some row => exact ⟨row, rfl⟩
    obtain ⟨row, hrowEq⟩ := hrow
    have hgetD :
        (generate_example sequence features nf nfeat maxlen idx).1.getD p []
          = row := by
      rw [List.getD_eq_getD_get?, hrowEq]
      rfl
    rw [hgetD]
    constructor
    · intro hm
      by_contra hne
      by_cases hvalid : p < sequence.length
      · have := hunmask p hvalid hne
        rw [hrowEq] at this
        have hseq : ∃ v, sequence.get? p = some v := by
          cases hs : sequence.get? p with
          | none =>
            exfalso
            have := List.get?_eq_none.1 hs
            omega
          | some v => exact ⟨v, rfl⟩
        obtain ⟨v, hvEq⟩ := hseq
        rw [hvEq] at this
        have hvnf : v < nf := hv v (List.get?_mem hvEq)
        have htake : row.take nf = oneHotRow nf v := by
          simpa using this
        have := rowMasked_of_take_oneHotRow nf v row hvnf htake
        rw [hm] at this
        exact Bool.true_eq_false.mp this
      · have := hpad p (by omega) hp
        rw [hrowEq] at this
        have htake : row.take nf = oneHotRow nf 0 := by
          simpa using this
        have := rowMasked_of_take_oneHotRow nf 0 row hnf htake
        rw [hm] at this
        exact Bool.true_eq_false.mp this
    · intro hpe
      subst hpe
      rw [hrowEq] at hmask
      have htake : row.take nf = List.replicate nf (some 0) := by
        simpa using hmask
      exact rowMasked_of_take_replicate row nf htake
  · show (one_hot_encode (padSeq sequence maxlen) nf).get? idx = _
    rw [get?_one_hot, get?_padSeq_lt sequence maxlen idx hlen hidx]

/-- Claim C1, witness: the amended masking invariant at the concrete
sequence 1, 2, 3, 1 with four categories, nine feature columns, padded
length ten and mask index two. -/
theorem c1_witness :
    ((generate_example [1, 2, 3, 1]
        [List.replicate 4 (some 1), List.replicate 4 (some 0),
          List.replicate 4 (some 1), List.replicate 4 (some 1),
          List.replicate 4 (some 0)] 4 9 10 2).1.get? 2).map
      (fun r => r.take 4) = some (List.replicate 4 (some 0)) :=
  (c1_masking [1, 2, 3, 1]
    [List.replicate 4 (some 1), List.replicate 4 (some 0),
      List.replicate 4 (some 1), List.replicate 4 (some 1),
      List.replicate 4 (some 0)] 4 9 10 2 (by decide) (by decide) (by decide)
    (by decide) (by decide)).1

/-- Claim C1, counterexample: with the sequence 1, 2, 3, 1 of length four,
padded length ten and mask index two, the padding row four does not have
an all-zero category block: its block is the one-hot of category 0, with
a 1 in column 0, contradicting the claim that every padding row has an
all-zero block. -/
theorem c1_counterexample :
    ([1, 2, 3, 1] : List ℕ).length = 4 ∧
    rowMasked 4 ((generate_example [1, 2, 3, 1]
        [List.replicate 4 (some 1), List.replicate 4 (some 0),
          List.replicate 4 (some 1), List.replicate 4 (some 1),
          List.replicate 4 (some 0)] 4 9 10 2).1.getD 4 []) = false ∧
    ((generate_example [1, 2, 3, 1]
        [List.replicate 4 (some 1), List.replicate 4 (some 0),
          List.replicate 4 (some 1), List.replicate 4 (some 1),
          List.replicate 4 (some 0)] 4 9 10 2).1.get? 4).map
      (fun r => r.take 4) = some (oneHotRow 4 0) := by
  refine ⟨rfl, ?_, ?_⟩ <;> decide

/-- Claim C10: get_masked recovers the masked index from the input tensor
of generate_example: the masked row is the only row whose first
num_functions columns are all zero, because padded positions and
category-0 genes are one-hot encoded with a 1 in column 0 rather than
left all-zero. -/
theorem c10_get_masked (sequence : List ℕ) (features : List (List Cell))
    (nf nfeat maxlen idx : ℕ)
    (hv : ∀ v ∈ sequence, v < nf)
    (hlen : sequence.length ≤ maxlen)
    (hidx : idx < sequence.length)
    (hnf : 0 < nf)
    (hsub : nf ≤ nfeat) :
    get_masked (generate_example sequence features nf nfeat maxlen idx).1 nf
      = some idx := by
  rw [get_masked]
  apply firstIdxSat_eq_some
  · intro j hj
    have hne : j ≠ idx := by omega
    have hblock := block_unmasked sequence features nf nfeat maxlen idx hsub j hne
    have hjv : j < sequence.length := by omega
    rw [get?_padSeq_lt sequence maxlen j hlen hjv] at hblock
    have hseq : ∃ v, sequence.get? j = some v := by
      cases hs : sequence.get? j with
      | none =>
        exfalso
        have := List.get?_eq_none.1 hs
        omega
      | some v => exact ⟨v, rfl⟩
    obtain ⟨v, hvEq⟩ := hseq
    rw [hvEq] at hblock
    rcases Option.map_eq_some'.1 hblock with ⟨row, hrow, htake⟩
    exact ⟨row, hrow,
      rowMasked_of_take_oneHotRow nf v row (hv v (List.get?_mem hvEq)) htake⟩
  · have hblock := block_masked sequence features nf nfeat maxlen idx hsub
      (by omega)
    rcases Option.map_eq_some'.1 hblock with ⟨row, hrow, htake⟩
    exact ⟨row, hrow, rowMasked_of_take_replicate row nf htake⟩

/-! ### Feature column placement in a generated example -/

theorem entry_applyFeatures_lt (fs : List (List Cell)) (M : Mat) (base j i : ℕ)
    (hj : j < base) :
    entry (applyFeatures M base fs) i j = entry M i j := by
  induction fs generalizing M base with
  | nil => rfl
  | cons f fs ih =>
    show entry (applyFeatures (encode_feature M f base) (base + 1) fs) i j = _
    rw [ih (encode_feature M f base) (base + 1) (by omega)]
    rw [entry, entry, get?_encode_feature]
    cases hf : f.get? i with
    | none => rfl
    | some v =>
      cases hM : M.get? i with
      | none => rfl
      | some r =>
        simp only [Option.map_some', Option.some_bind]
        rw [List.get?_eq_getElem?, List.get?_eq_getElem?,
          List.getElem?_set_ne (by omega : base ≠ j)]

theorem entry_applyFeatures_at (fs : List (List Cell)) (M : Mat)
    (base j i W : ℕ) (v : Cell)
    (hrows : ∀ r ∈ M, r.length = W) (hW : base + fs.length ≤ W)
    (hi : i < M.length) (hv : (fs.getD j []).get? i = some v)
    (hj : j < fs.length) :
    entry (applyFeatures M base fs) i (base + j) = some v := by
  induction fs generalizing M base j with
  | nil => simp at hj
  | cons f fs ih =>
    cases j with
    | zero =>
      show entry (applyFeatures (encode_feature M f base) (base + 1) fs) i
        base = some v
      rw [entry_applyFeatures_lt fs (encode_feature M f base) (base + 1) base i
        (by omega)]
      rw [entry, get?_encode_feature]
      have hv0 : f.get? i = some v := hv
      rw [hv0]
      cases hM : M.get? i with
      | none =>
        exfalso
        have := List.get?_eq_none.1 hM
        omega
      | some r =>
        have hrl : r.length = W := hrows r (List.get?_mem hM)
        simp only [Option.map_some', Option.some_bind]
        rw [List.get?_eq_getElem?]
        have hbase : base < r.length := by
          simp only [List.length_cons] at hW
          omega
        exact List.getElem?_set_eq_of_lt v hbase
    | succ j =>
      have hsum : base + (j + 1) = (base + 1) + j := by omega
      rw [hsum]
      show entry (applyFeatures (encode_feature M f base) (base + 1) fs) i
        ((base + 1) + j) = some v
      apply ih (encode_feature M f base) (base + 1) j
      · exact rows_length_encode_feature M f base W hrows
      · simp only [List.length_cons] at hW
        omega
      · rw [length_encode_feature]
        exact hi
      · exact hv
      · simp only [List.length_cons] at hj
        omega

theorem entry_maskRow_ge (M : Mat) (idx n j i : ℕ) (hj : n ≤ j) :
    entry (maskRow M idx n) i j = entry M i j := by
  by_cases hi : i = idx
  · subst hi
    rw [entry, get?_maskRow_eq, entry]
    cases hM : M.get? i with
    | none => rfl
    | some r =>
      simp only [Option.map_some', Option.some_bind]
      exact get?_zeroFirstCols_ge r n j hj
  · rw [entry, get?_maskRow_ne M idx n i hi, entry]

theorem entry_generate_example_feature (sequence : List ℕ)
    (features : List (List Cell)) (nf nfeat maxlen idx j p : ℕ) (v : Cell)
    (hj : j < features.length) (hW : nf + features.length ≤ nfeat)
    (hp : p < maxlen) (hv : (features.getD j []).get? p = some v) :
    entry (generate_example sequence features nf nfeat maxlen idx).1 p (nf + j)
      = some v := by
  show entry (maskRow (applyFeatures
    (one_hot_encode (padSeq sequence maxlen) nfeat) nf features) idx nf) p
    (nf + j) = some v
  rw [entry_maskRow_ge _ idx nf (nf + j) p (by omega)]
  apply entry_applyFeatures_at features _ nf j p nfeat v
  · intro r hr
    rcases List.mem_map.1 hr with ⟨w, _, hw⟩
    rw [← hw, length_oneHotRow]
  · exact hW
  · rw [length_one_hot, length_padSeq]
    exact hp
  · exact hv
  · exact hj

/-- Claim C10, witness: get_masked returns the mask index two on the
concrete example of the C1 witness. -/
theorem c10_witness :
    get_masked (generate_example [1, 2, 3, 1]
        [List.replicate 4 (some 1), List.replicate 4 (some 0),
          List.replicate 4 (some 1), List.replicate 4 (some 1),
          List.replicate 4 (some 0)] 4 9 10 2).1 4 = some 2 :=
  c10_get_masked [1, 2, 3, 1]
    [List.replicate 4 (some 1), List.replicate 4 (some 0),
      List.replicate 4 (some 1), List.replicate 4 (some 1),
      List.replicate 4 (some 0)] 4 9 10 2 (by decide) (by decide) (by decide)
    (by decide) (by decide)

/-- The genome used for the C7 witness and counterexample: two genes, the
first on the forward strand. -/
def gC7 : Genome := ⟨10, [1, 2], ["a", "b"], ['+', '-'], [(0, 3), (5, 9)]⟩

/-- Claim C7, amended: in the tensor generate_example builds from the
format_data features, the column right after the category block carries
the reverse-strand indicator (1 exactly at genes on the minus strand), the
next column the forward indicator (1 exactly at genes on the plus
strand), followed by normalized length, normalized start and normalized
intergenic distance, in that order. -/
theorem c7_feature_columns (gs : List Genome) (g : Genome) (enc : ℕ → ℕ)
    (nf nfeat maxlen idx : ℕ)
    (hsense : ∀ c ∈ g.sense, c = '+' ∨ c = '-')
    (hW : nf + 5 ≤ nfeat)
    (hlen : g.sense.length ≤ maxlen)
    (hpl : g.position.length ≤ maxlen)
    (hpos : g.position ≠ []) :
    (∀ p c, g.sense.get? p = some c →
      entry (generate_example (categoriesOf enc g) (format_features gs g)
          nf nfeat maxlen idx).1 p nf
        = some (some (if c = '-' then 1 else 0)) ∧
      entry (generate_example (categoriesOf enc g) (format_features gs g)
          nf nfeat maxlen idx).1 p (nf + 1)
        = some (some (if c = '+' then 1 else 0))) ∧
    (∀ p v, (lengthFeat gs g).get? p = some v →
      entry (generate_example (categoriesOf enc g) (format_features gs g)
        nf nfeat maxlen idx).1 p (nf + 2) = some v) ∧
    (∀ p v, (startFeat g).get? p = some v →
      entry (generate_example (categoriesOf enc g) (format_features gs g)
        nf nfeat maxlen idx).1 p (nf + 3) = some v) ∧
    (∀ p v, (intergenicFeat gs g).get? p = some v →
      entry (generate_example (categoriesOf enc g) (format_features gs g)
        nf nfeat maxlen idx).1 p (nf + 4) = some v) := by
  have hflen : (format_features gs g).length = 5 := rfl
  refine ⟨?_, ?_, ?_, ?_⟩
  · intro p c hc
    have hmemc := List.get?_mem hc
    have hps : p < g.sense.length := by
      by_contra hge
      rw [List.get?_eq_none.2 (by omega)] at hc
      cases hc
    have hp : p < maxlen := by omega
    have hstrand1 : ((format_features gs g).getD 0 []).get? p
        = some (some (if c = '-' then (1 : ℚ) else 0)) := by
      show ((encode_strand (senseNum g)).1.map some).get? p = _
      rw [encode_strand]
      rw [List.get?_map, senseNum, List.get?_map, List.get?_map, hc]
      rcases hsense c hmemc with h | h <;> subst h <;> rfl
    have hstrand2 : ((format_features gs g).getD 1 []).get? p
        = some (some (if c = '+' then (1 : ℚ) else 0)) := by
      show ((encode_strand (senseNum g)).2.map some).get? p = _
      rw [encode_strand]
      rw [List.get?_map, senseNum, List.get?_map, List.get?_map, hc]
      rcases hsense c hmemc with h | h <;> subst h <;> rfl
    constructor
    · have := entry_generate_example_feature (categoriesOf enc g)
        (format_features gs g) nf nfeat maxlen idx 0
        p (some (if c = '-' then (1 : ℚ) else 0)) (by rw [hflen]; omega)
        (by rw [hflen]; omega) hp hstrand1

      simpa using this
    · exact entry_generate_example_feature (categoriesOf enc g)
        (format_features gs g) nf nfeat maxlen idx 1
        p (some (if c = '+' then (1 : ℚ) else 0)) (by rw [hflen]; omega)
        (by rw [hflen]; omega) hp hstrand2
  · intro p v hv
    have hps : p < (lengthFeat gs g).length := by
      by_contra hge
      rw [List.get?_eq_none.2 (by omega)] at hv
      cases hv
    have hp : p < maxlen := by
      have : (lengthFeat gs g).length = g.position.length := by
        rw [lengthFeat, List.length_map, geneLengths, List.length_map]
      omega
    exact entry_generate_example_feature (categoriesOf enc g)
      (format_features gs g) nf nfeat maxlen idx 2 p v (by rw [hflen]; omega)
      (by rw [hflen]; omega) hp hv
  · intro p v hv
    have hps : p < (startFeat g).length := by
      by_contra hge
      rw [List.get?_eq_none.2 (by omega)] at hv
      cases hv
    have hp : p < maxlen := by
      have : (startFeat g).length = g.position.length := by
        rw [startFeat, List.length_map, startsRaw, List.length_map]
      omega
    exact entry_generate_example_feature (categoriesOf enc g)
      (format_features gs g) nf nfeat maxlen idx 3 p v (by rw [hflen]; omega)
      (by rw [hflen]; omega) hp hv
  · intro p v hv
    have hps : p < (intergenicFeat gs g).length := by
      by_contra hge
      rw [List.get?_eq_none.2 (by omega)] at hv
      cases hv
    have hp : p < maxlen := by
      have hlen2 : (intergenicFeat gs g).length =
          (g.position.zip g.position.tail).length + 1 := by
        rw [intergenicFeat, List.length_map, intergenicRaw, List.length_cons,
          List.length_map]
      obtain ⟨q, qs, hq⟩ : ∃ q qs, g.position = q :: qs := by
        rcases hgp : g.position with _ | ⟨q, qs⟩
        · exact absurd hgp hpos
        · exact ⟨q, qs, rfl⟩
      rw [hlen2, hq] at hps
      rw [List.length_zip] at hps
      simp only [List.length_cons, List.tail_cons] at hps
      have hq2 : g.position.length = qs.length + 1 := by rw [hq]; rfl
      omega
    exact entry_generate_example_feature (categoriesOf enc g)
      (format_features gs g) nf nfeat maxlen idx 4 p v (by rw [hflen]; omega)
      (by rw [hflen]; omega) hp hv

/-- Claim C7, counterexample: gene 0 of the concrete genome lies on the
plus strand, yet column num_functions of the generated tensor holds 0 and
column num_functions + 1 holds 1: the first strand column is the reverse
indicator, not the forward indicator the claim states. -/
theorem c7_counterexample :
    gC7.sense.get? 0 = some '+' ∧
    entry (generate_example (categoriesOf (fun n => n) gC7)
      (format_features [gC7] gC7) 3 8 4 1).1 0 3 = some (some 0) ∧
    entry (generate_example (categoriesOf (fun n => n) gC7)
      (format_features [gC7] gC7) 3 8 4 1).1 0 4 = some (some 1) := by
  refine ⟨rfl, ?_, ?_⟩ <;> decide

/-- Claim C7, witness: the amended column layout at gene 0 of the concrete
genome, on the plus strand. -/
theorem c7_witness :
    entry (generate_example (categoriesOf (fun n => n) gC7)
      (format_features [gC7] gC7) 3 8 4 1).1 0 3
      = some (some (if ('+' : Char) = '-' then 1 else 0)) ∧
    entry (generate_example (categoriesOf (fun n => n) gC7)
      (format_features [gC7] gC7) 3 8 4 1).1 0 4
      = some (some (if ('+' : Char) = '+' then 1 else 0)) :=
  (c7_feature_columns [gC7] gC7 (fun n => n) 3 8 4 1 (by decide) (by decide)
    (by decide) (by decide) (by decide)).1 0 '+' rfl

/-- The genome used for the C8 witness: two genes with positive lengths
and a positive intergenic gap. -/
def gC8 : Genome := ⟨100, [1, 2], ["a", "b"], ['+', '-'], [(1, 10), (20, 30)]⟩

/-- Claim C8, amended: under the GenomeRecord preconditions, and provided
the dataset-wide maximum gene length and maximum absolute intergenic
distance are positive, every normalized length value lies in the closed
interval from 0 to 1, every normalized start value is positive and at
most 1, and every normalized intergenic value lies between -1 and 1. -/
theorem c8_bounds (gs : List Genome) (g : Genome)
    (hg : g ∈ gs)
    (hpos : g.position ≠ [])
    (hspan : ∀ p ∈ g.position, p.1 ≤ p.2 ∧ p.2 ≤ g.length)
    (hmono : List.Pairwise (fun a b => a.1 ≤ b.1) g.position)
    (hML : 0 < maxLenScalar gs)
    (hMI : 0 < maxIntergenicScalar gs) :
    (∀ v ∈ lengthFeat gs g, ∃ q : ℚ, v = some q ∧ 0 ≤ q ∧ q ≤ 1) ∧
    (∀ v ∈ startFeat g, ∃ q : ℚ, v = some q ∧ 0 < q ∧ q ≤ 1) ∧
    (∀ v ∈ intergenicFeat gs g, ∃ q : ℚ, v = some q ∧ -1 ≤ q ∧ q ≤ 1) := by
  have hMLQ : (0 : ℚ) < ((maxLenScalar gs : ℤ) : ℚ) := by exact_mod_cast hML
  have hMIQ : (0 : ℚ) < ((maxIntergenicScalar gs : ℤ) : ℚ) := by
    exact_mod_cast hMI
  refine ⟨?_, ?_, ?_⟩
  · intro v hv
    rcases List.mem_map.1 hv with ⟨d, hd, hve⟩
    have h0 : (0 : ℤ) ≤ d := by
      rcases List.mem_map.1 hd with ⟨p, hp, hde⟩
      have := (hspan p hp).1
      omega
    have hle : d ≤ maxLenScalar gs := by
      have h1 := mem_le_listMaxD (geneLengths g) d hd
      have h2 := mem_le_listMaxD (gs.map (fun g => listMaxD (geneLengths g)))
        (listMaxD (geneLengths g))
        (List.mem_map_of_mem (fun g => listMaxD (geneLengths g)) hg)
      rw [maxLenScalar]
      omega
    rw [← hve, npDiv, if_neg (by exact ne_of_gt hMLQ)]
    refine ⟨_, rfl, ?_, ?_⟩
    · apply div_nonneg _ (le_of_lt hMLQ)
      exact_mod_cast h0
    · rw [div_le_one hMLQ]
      exact_mod_cast hle
  · intro v hv
    rcases List.mem_map.1 hv with ⟨s, hs, hve⟩
    obtain ⟨p0, rest, hpp⟩ : ∃ p0 rest, g.position = p0 :: rest := by
      rcases hgp : g.position with _ | ⟨a, l⟩
      · exact absurd hgp hpos
      · exact ⟨a, l, rfl⟩
    have hhead : ∀ p ∈ g.position, (g.position.headI).1 ≤ p.1 := by
      rw [hpp]
      rw [hpp] at hmono
      intro p hp
      rcases List.mem_cons.1 hp with h1 | h2
      · subst h1
        simp
      · have := (List.pairwise_cons.1 hmono).1 p h2
        simpa using this
    have hone : ∀ t ∈ startsRaw g, 1 ≤ t := by
      intro t ht
      rcases List.mem_map.1 ht with ⟨p, hp, hte⟩
      have := hhead p hp
      omega
    have h1s : 1 ≤ s := hone s hs
    have hsD : s ≤ listMaxD (startsRaw g) := mem_le_listMaxD (startsRaw g) s hs
    have hD1 : 1 ≤ listMaxD (startsRaw g) := by omega
    have hDQ : (0 : ℚ) < ((listMaxD (startsRaw g) : ℤ) : ℚ) := by
      exact_mod_cast (by omega : (0 : ℤ) < listMaxD (startsRaw g))
    rw [← hve, npDiv, if_neg (by exact ne_of_gt hDQ)]
    refine ⟨_, rfl, ?_, ?_⟩
    · apply div_pos _ hDQ
      exact_mod_cast (by omega : (0 : ℤ) < s)
    · rw [div_le_one hDQ]
      exact_mod_cast hsD
  · intro v hv
    rcases List.mem_map.1 hv with ⟨d, hd, hve⟩
    have habs : |d| ≤ maxIntergenicScalar gs := by
      have h1 := mem_le_listMaxD ((intergenicRaw g).map (fun t : ℤ => |t|)) |d|
        (List.mem_map_of_mem (fun t : ℤ => |t|) hd)
      have h2 := mem_le_listMaxD
        (gs.map (fun g => listMaxD ((intergenicRaw g).map (fun t : ℤ => |t|))))
        (listMaxD ((intergenicRaw g).map (fun t : ℤ => |t|)))
        (List.mem_map_of_mem _ hg)
      rw [maxIntergenicScalar]
      omega
    rw [← hve, npDiv, if_neg (by exact ne_of_gt hMIQ)]
    refine ⟨_, rfl, ?_⟩
    rw [← abs_le, abs_div, abs_of_pos hMIQ, div_le_one hMIQ]
    have : ((|d| : ℤ) : ℚ) = |(d : ℚ)| := by push_cast; rfl
    rw [← this]
    exact_mod_cast habs

/-- Claim C8, counterexample: a dataset whose single genome has one
zero-length span meets all the stated GenomeRecord preconditions, yet its
normalized length feature is the undefined value none, produced by the
zero dataset-wide maximum, so it lies in no interval at all. -/
theorem c8_counterexample :
    (∀ p ∈ (⟨5, [7], ["p"], ['+'], [(2, 2)]⟩ : Genome).position,
      p.1 ≤ p.2 ∧ p.2 ≤ (⟨5, [7], ["p"], ['+'], [(2, 2)]⟩ : Genome).length) ∧
    List.Pairwise (fun a b => a.1 ≤ b.1)
      (⟨5, [7], ["p"], ['+'], [(2, 2)]⟩ : Genome).position ∧
    lengthFeat [⟨5, [7], ["p"], ['+'], [(2, 2)]⟩]
      ⟨5, [7], ["p"], ['+'], [(2, 2)]⟩ = [none] := by
  refine ⟨by decide, ?_, ?_⟩
  · simp
  · simp [lengthFeat, geneLengths, maxLenScalar, listMaxD, npDiv]

/-- Claim C8, witness: the amended bounds at a concrete one-genome dataset
with positive gene lengths and a positive intergenic gap. -/
theorem c8_witness :
    (∀ v ∈ lengthFeat [gC8] gC8, ∃ q : ℚ, v = some q ∧ 0 ≤ q ∧ q ≤ 1) ∧
    (∀ v ∈ startFeat gC8, ∃ q : ℚ, v = some q ∧ 0 < q ∧ q ≤ 1) ∧
    (∀ v ∈ intergenicFeat [gC8] gC8, ∃ q : ℚ, v = some q ∧ -1 ≤ q ∧ q ≤ 1) :=
  c8_bounds [gC8] gC8 (List.mem_singleton.2 rfl) (by decide) (by decide)
    (by simp [gC8]) (by decide) (by decide)
